import Mathlib

/-!
Verification of the ts-protobuf-decoder repository.

The wire-format decoder (src/decoder.ts) is embedded over `List Nat` byte
buffers.  JavaScript out-of-bounds reads (`binary[i]` yielding `undefined`)
are modelled with `Option Nat` (`none` = `undefined`); JavaScript's
`undefined & m = 0` is reflected by using `getD i 0` wherever the source
feeds a possibly-`undefined` byte to `&`.  JavaScript's `>>` operator is
32-bit signed (ToInt32 then arithmetic shift) and is modelled exactly by
`jsShr3`.  Arithmetic is otherwise modelled exactly over `Nat`/`Int`.
-/

namespace ProtoDec

/-- WIRE_TYPE_MAP values (decoder.ts lines 3-8). -/
inductive WireType where
  | VARINT
  | I64
  | LEN
  | I32
deriving DecidableEq, Repr

/-- WIRE_TYPE_MAP as a lookup from the low tag bits (decoder.ts lines 3-8):
`0 → VARINT, 1 → I64, 2 → LEN, 5 → I32`, anything else absent. -/
def wireTypeMap : Nat → Option WireType
  | 0 => some .VARINT
  | 1 => some .I64
  | 2 => some .LEN
  | 5 => some .I32
  | _ => none

/-- A decoded wire value (`number | number[]` in decoder.ts).  `scalar none`
models the JavaScript `undefined` a VARINT read can yield out of bounds;
entries of `bytes` are `none` when the corresponding buffer read was out of
bounds. -/
inductive FieldValue where
  | scalar : Option Nat → FieldValue
  | bytes : List (Option Nat) → FieldValue
deriving DecidableEq, Repr

/-- Result of parseVarint (decoder.ts lines 22-57). -/
structure VarintResult where
  value : Option Nat
  nextByteIndex : Nat
deriving DecidableEq, Repr

/-- The multi-byte walk of parseVarint (decoder.ts lines 35-45), expressed on
the byte list starting at the current index: collect bytes while the
continuation bit is set, then push the final byte.  An out-of-bounds read
(`[]`) terminates the walk because `undefined & 0x80` is `0` in JavaScript,
and the pushed `undefined` byte behaves as `0` under the later `& 0x7f`. -/
def takeVarintBytes : List Nat → List Nat
  | [] => [0]
  | b :: rest => if b &&& 128 ≠ 0 then b :: takeVarintBytes rest else [b]

/-- Rounding of a non-negative integer to the nearest IEEE-754 double
(round half to even), as JavaScript's number conversion performs on the
mathematical integer a numeric string denotes: values below 2^53 are exact,
larger values keep 53 significant bits. -/
def roundDouble (n : Nat) : Nat :=
  if n < 9007199254740992 then n
  else
    let ulp := 2 ^ (Nat.log2 n - 52)
    let q := n / ulp
    let r := n % ulp
    if 2 * r < ulp then q * ulp
    else if ulp < 2 * r then (q + 1) * ulp
    else if q % 2 = 0 then q * ulp else (q + 1) * ulp

/-- parseVarint (decoder.ts lines 22-57).  The single-byte fast path returns
the byte itself (possibly `undefined` out of bounds); the multi-byte path
masks off the continuation bit of each collected byte, reverses the 7-bit
groups into big-endian order and concatenates them (the string-concatenation
of the source is the fold below), then converts the binary numeral with
`parseInt(concatenatedBinaryString, 2)` — an IEEE-754 double, so values of
2^53 and above are rounded (`roundDouble`), as the repository's own
large-varint tests exhibit. -/
def parseVarint (binary : List Nat) (currentByteIndex : Nat) : VarintResult :=
  if (binary.getD currentByteIndex 0) &&& 128 == 0 then
    { value := binary.get? currentByteIndex, nextByteIndex := currentByteIndex + 1 }
  else
    let bytes := takeVarintBytes (binary.drop currentByteIndex)
    { value := some (roundDouble
        (((bytes.map (· &&& 127)).reverse).foldl (fun acc b => acc * 128 + b) 0))
      nextByteIndex := currentByteIndex + bytes.length }

/-- The value the spec ascribes to a varint byte sequence: mask the
continuation bit off each byte and concatenate the 7-bit groups in
little-endian order (first byte = least-significant group). -/
def varintLE : List Nat → Nat
  | [] => 0
  | b :: rest => (b &&& 127) + 128 * varintLE rest

/-- A well-formed varint byte sequence: nonempty, every byte before the last
has the continuation bit set, the last has it clear. -/
def isVarintBytes : List Nat → Bool
  | [] => false
  | [b] => b &&& 128 == 0
  | b :: rest => b &&& 128 != 0 && isVarintBytes rest

/-- parseFieldType (decoder.ts lines 59-75): the low 3 bits of the byte
select the wire type, anything outside the map is an error. -/
def parseFieldType (byte : Nat) : Except String WireType :=
  let typeBits := 7 &&& byte
  match wireTypeMap typeBits with
  | some t => .ok t
  | none => .error ("Unknown wire type = \"" ++ toString typeBits ++ "\" (decimal)")

/-- JavaScript's 32-bit signed ToInt32 conversion of a non-negative number. -/
def toInt32 (n : Nat) : Int :=
  let m := n % 4294967296
  if m < 2147483648 then (m : Int) else (m : Int) - 4294967296

/-- JavaScript `n >> 3`: ToInt32 then arithmetic shift right by 3
(floor-division of the signed value by 8). -/
def jsShr3 (n : Nat) : Int :=
  let m := n % 4294967296
  if m < 2147483648 then ((m / 8 : Nat) : Int) else ((m / 8 : Nat) : Int) - 536870912

/-- Result of parseFieldNumber (decoder.ts lines 80-104).  The field number
is an `Int` because JavaScript's `>>` is a signed 32-bit shift. -/
structure FieldNumberResult where
  fieldNumber : Int
  nextByteIndex : Nat
deriving DecidableEq, Repr

/-- parseFieldNumber (decoder.ts lines 80-104): single-byte tags shift the
raw byte right 3 bits, multi-byte tags decode the varint first and shift the
value.  An out-of-bounds single byte is `undefined`, and `undefined >> 3` is
`0` in JavaScript, which `getD _ 0` reproduces. -/
def parseFieldNumber (binary : List Nat) (currentByteIndex : Nat) : FieldNumberResult :=
  if (binary.getD currentByteIndex 0) &&& 128 == 0 then
    { fieldNumber := jsShr3 (binary.getD currentByteIndex 0)
      nextByteIndex := currentByteIndex + 1 }
  else
    let r := parseVarint binary currentByteIndex
    { fieldNumber := jsShr3 (r.value.getD 0), nextByteIndex := r.nextByteIndex }

/-- Result of parseFieldValue (decoder.ts lines 106-167).  `nextByteIndex`
is `none` when the source computes `NaN` (`nextByteIndex + undefined`, which
happens when the LEN length varint was itself an out-of-bounds single-byte
read). -/
structure FieldValueResult where
  value : FieldValue
  nextByteIndex : Option Nat
deriving DecidableEq, Repr

/-- parseFieldValue (decoder.ts lines 106-167).  VARINT decodes one varint;
LEN decodes a length varint then collects that many raw byte reads (out of
bounds reads included, as `undefined`); I32 and I64 take the next 4 resp. 8
raw byte reads. -/
def parseFieldValue (binary : List Nat) (currentByteIndex : Nat) :
    WireType → FieldValueResult
  | .VARINT =>
    let res := parseVarint binary currentByteIndex
    { value := .scalar res.value, nextByteIndex := some res.nextByteIndex }
  | .LEN =>
    let r := parseVarint binary currentByteIndex
    match r.value with
    | some n =>
      { value := .bytes ((List.range n).map (fun i => binary.get? (r.nextByteIndex + i)))
        nextByteIndex := some (r.nextByteIndex + n) }
    | none =>
      { value := .bytes [], nextByteIndex := none }
  | .I32 =>
    { value := .bytes [binary.get? currentByteIndex, binary.get? (currentByteIndex + 1),
        binary.get? (currentByteIndex + 2), binary.get? (currentByteIndex + 3)]
      nextByteIndex := some (currentByteIndex + 4) }
  | .I64 =>
    { value := .bytes [binary.get? currentByteIndex, binary.get? (currentByteIndex + 1),
        binary.get? (currentByteIndex + 2), binary.get? (currentByteIndex + 3),
        binary.get? (currentByteIndex + 4), binary.get? (currentByteIndex + 5),
        binary.get? (currentByteIndex + 6), binary.get? (currentByteIndex + 7)]
      nextByteIndex := some (currentByteIndex + 8) }

/-- One decoded field in the raw field map. -/
structure DecodedField where
  type : WireType
  value : FieldValue
deriving DecidableEq, Repr

theorem takeVarintBytes_length_pos (l : List Nat) : 0 < (takeVarintBytes l).length := by
  cases l with
  | nil => simp [takeVarintBytes]
  | cons b rest =>
    simp only [takeVarintBytes]
    split <;> simp

theorem parseVarint_lt (binary : List Nat) (i : Nat) :
    i < (parseVarint binary i).nextByteIndex := by
  unfold parseVarint
  split
  · simp
  · simpa using takeVarintBytes_length_pos (binary.drop i)

theorem parseFieldNumber_lt (binary : List Nat) (i : Nat) :
    i < (parseFieldNumber binary i).nextByteIndex := by
  unfold parseFieldNumber
  split
  · simp
  · simpa using parseVarint_lt binary i

theorem parseFieldValue_lt (binary : List Nat) (i : Nat) (t : WireType) (n : Nat)
    (h : (parseFieldValue binary i t).nextByteIndex = some n) : i < n := by
  cases t with
  | VARINT =>
    simp only [parseFieldValue, Option.some.injEq] at h
    subst h
    exact parseVarint_lt binary i
  | LEN =>
    simp only [parseFieldValue] at h
    cases hv : (parseVarint binary i).value with
    | none => simp [hv] at h
    | some m =>
      simp only [hv, Option.some.injEq] at h
      have := parseVarint_lt binary i
      omega
  | I32 =>
    simp only [parseFieldValue, Option.some.injEq] at h
    omega
  | I64 =>
    simp only [parseFieldValue, Option.some.injEq] at h
    omega

/-- Definitional unfolding of parseFieldValue at wire type LEN. -/
theorem parseFieldValue_len_eq (binary : List Nat) (i : Nat) :
    parseFieldValue binary i .LEN =
      match (parseVarint binary i).value with
      | some n =>
        { value := .bytes ((List.range n).map (fun k =>
            binary.get? ((parseVarint binary i).nextByteIndex + k)))
          nextByteIndex := some ((parseVarint binary i).nextByteIndex + n) }
      | none => { value := .bytes [], nextByteIndex := none } := rfl

/-- The scan loop of getDecodedFieldNumberToWireFormatMap (decoder.ts lines
169-194), made explicit as the ordered list of (field number, decoded field)
records produced while the current byte exists.  A `NaN` next index (`none`)
records the current field and then leaves the loop, as the source does when
it indexes the buffer with `NaN`. -/
def scanFrom (binary : List Nat) (byteIndex : Nat) :
    Except String (List (Int × DecodedField)) :=
  match hb : binary.get? byteIndex with
  | none => .ok []
  | some b =>
    match parseFieldType b with
    | .error e => .error e
    | .ok t =>
      let fnr := parseFieldNumber binary byteIndex
      let fvr := parseFieldValue binary fnr.nextByteIndex t
      match hn : fvr.nextByteIndex with
      | none => .ok [(fnr.fieldNumber, ⟨t, fvr.value⟩)]
      | some nxt =>
        match scanFrom binary nxt with
        | .error e => .error e
        | .ok rest => .ok ((fnr.fieldNumber, ⟨t, fvr.value⟩) :: rest)
termination_by binary.length - byteIndex
decreasing_by
  have hlen : byteIndex < binary.length := by
    by_contra hge
    rw [List.get?_eq_none.mpr (by omega)] at hb
    exact Option.noConfusion hb
  have h1 : byteIndex < fnr.nextByteIndex := parseFieldNumber_lt binary byteIndex
  have h2 : fnr.nextByteIndex < nxt := parseFieldValue_lt binary fnr.nextByteIndex t nxt hn
  omega

/-- The object assignment `map[k] = v` of the scan, as a function update. -/
def mapAssign (m : Int → Option DecodedField) (r : Int × DecodedField) :
    Int → Option DecodedField :=
  fun k => if k = r.1 then some r.2 else m k

/-- getDecodedFieldNumberToWireFormatMap (decoder.ts lines 169-194): perform
the scan's object assignments in order, starting from the empty object. -/
def getDecodedFieldNumberToWireFormatMap (binary : List Nat) :
    Except String (Int → Option DecodedField) :=
  match scanFrom binary 0 with
  | .error e => .error e
  | .ok rs => .ok (rs.foldl mapAssign (fun _ => none))

theorem scanFrom_stop (binary : List Nat) (i : Nat) (h : binary.get? i = none) :
    scanFrom binary i = .ok [] := by
  rw [scanFrom]
  split
  · rfl
  · rename_i b hb
    rw [h] at hb
    exact Option.noConfusion hb

theorem scanFrom_step (binary : List Nat) (i : Nat) (b : Nat) (t : WireType) (nxt : Nat)
    (rest : List (Int × DecodedField))
    (hb : binary.get? i = some b)
    (ht : parseFieldType b = .ok t)
    (hn : (parseFieldValue binary (parseFieldNumber binary i).nextByteIndex t).nextByteIndex
      = some nxt)
    (hrest : scanFrom binary nxt = .ok rest) :
    scanFrom binary i = .ok (((parseFieldNumber binary i).fieldNumber,
      ⟨t, (parseFieldValue binary (parseFieldNumber binary i).nextByteIndex t).value⟩) :: rest) := by
  rw [scanFrom]
  split
  · rename_i hb'
    rw [hb] at hb'
    exact Option.noConfusion hb'
  · rename_i b' hb'
    rw [hb] at hb'
    injection hb' with hbb
    subst hbb
    rw [ht]
    simp only []
    split
    · rename_i hn'
      rw [hn] at hn'
      exact Option.noConfusion hn'
    · rename_i nxt' hn'
      rw [hn] at hn'
      injection hn' with hnn
      subst hnn
      rw [hrest]

/-! ## Schema AST and message assembly

The schema AST produced by the parser (part of the parser module; the
decoder consumes it in decodeMessage / pullMessageMetadataFromAst,
decoder.ts lines 196-301). -/

/-- Proto field types supported by the schema language. -/
inductive FieldType where
  | int32
  | bool
  | string
deriving DecidableEq, Repr

/-- Schema AST nodes (the `AST` union of the parser module): a syntax
declaration, a message with its body, or a field declaration. -/
inductive AstNode where
  | syntaxDecl (value : String)
  | message (name : String) (body : List AstNode)
  | field (fieldType : FieldType) (name : String) (number : Nat)

/-- One entry of MessageFieldNumberMetadata (decoder.ts lines 196-203). -/
structure FieldMeta where
  name : String
  number : Nat
  ftype : FieldType
deriving DecidableEq, Repr

/-- The `ast.find(...)` step of pullMessageMetadataFromAst (decoder.ts lines
209-217): first AST node that is a message with the requested name. -/
def findMessage : List AstNode → String → Option (String × List AstNode)
  | [], _ => none
  | .message n body :: rest, target =>
    if n = target then some (n, body) else findMessage rest target
  | _ :: rest, target => findMessage rest target

/-- The `message.body.forEach` step of pullMessageMetadataFromAst
(decoder.ts lines 221-231): each field child becomes a metadata entry in
declaration order; any non-field child aborts with an error. -/
def rawFields : List AstNode → Except String (List FieldMeta)
  | [] => .ok []
  | .field t n num :: rest =>
    match rawFields rest with
    | .error e => .error e
    | .ok fs => .ok (⟨n, num, t⟩ :: fs)
  | .message _ _ :: _ => .error "message body type: \"message\" not yet supported"
  | .syntaxDecl _ :: _ => .error "message body type: \"syntax\" not yet supported"

/-- Last metadata entry assigned to a given field number (JavaScript object
assignment semantics: a later `map[b.number] = ...` overwrites an earlier
one). -/
def lastWithNumber (fs : List FieldMeta) (k : Nat) : Option FieldMeta :=
  fs.reverse.find? (fun f => f.number == k)

/-- First-occurrence deduplication of the assigned keys. -/
def dedupGo (seen : List Nat) : List Nat → List Nat
  | [] => []
  | k :: rest => if k ∈ seen then dedupGo seen rest else k :: dedupGo (k :: seen) rest

def dedupNats (l : List Nat) : List Nat := dedupGo [] l

/-- Insertion of a key into an ascending list (JavaScript objects enumerate
integer-like keys in ascending numeric order). -/
def insortNat (k : Nat) : List Nat → List Nat
  | [] => [k]
  | x :: xs => if k ≤ x then k :: x :: xs else x :: insortNat k xs

def sortNats (l : List Nat) : List Nat := l.foldr insortNat []

/-- The `Object.values` view of the metadata object built by pullMessageMetadataFromAst:
distinct assigned field numbers in ascending order, each mapped to the last
entry assigned to it. -/
def objectValues (fs : List FieldMeta) : List FieldMeta :=
  (sortNats (dedupNats (fs.map FieldMeta.number))).filterMap (lastWithNumber fs)

/-- pullMessageMetadataFromAst (decoder.ts lines 205-234), returning the
metadata entries in the order `Object.values` later enumerates them. -/
def pullMessageMetadataFromAst (ast : List AstNode) (messageName : String) :
    Except String (List FieldMeta) :=
  match findMessage ast messageName with
  | none =>
    .error ("Could not find message: \"" ++ messageName ++ "\" in the provided AST")
  | some (_, body) =>
    match rawFields body with
    | .error e => .error e
    | .ok fs => .ok (objectValues fs)

/-- A value of the assembled output record (`string | number | boolean` in
decodeMessage's signature; `arr` records that the untyped `as number` cast on
an int32 field can in fact leak the raw byte array through). -/
inductive OutVal where
  | str (s : String)
  | boolean (b : Bool)
  | num (n : Nat)
  | arr (bs : List (Option Nat))
deriving DecidableEq, Repr

/-- Models `Buffer.from(bytes).toString()` for the byte lists the scan produces:
each entry is truncated mod 256 (Buffer.from semantics), an `undefined`
entry becomes 0, and the bytes are read as characters (accurate for the
ASCII payloads this decoder handles). -/
def bytesToString (bs : List (Option Nat)) : String :=
  String.mk (bs.map (fun o => Char.ofNat (o.getD 0 % 256)))

/-- JavaScript truthiness of a decoded wire value (`undefined` and `0` are
falsy, every array is truthy). -/
def jsTruthy : FieldValue → Bool
  | .scalar none => false
  | .scalar (some n) => n != 0
  | .bytes _ => true

/-- The per-field `switch (meta.type)` of decodeMessage (decoder.ts lines
275-295).  `string`: a truthy value is fed to `Buffer.from`, which throws a
TypeError on a number, otherwise the raw bytes are decoded as text; falsy or
absent yields "".  `bool`: strict equality of the raw value with `1`.
`int32`: the raw value unchanged (`?? 0` for absent/undefined) — note the
source performs no 32-bit narrowing (its own `// todo: narrow` comment). -/
def formatField (lookup : Option DecodedField) : FieldType → Except String OutVal
  | .string =>
    match lookup with
    | none => .ok (.str "")
    | some df =>
      if jsTruthy df.value then
        match df.value with
        | .bytes bs => .ok (.str (bytesToString bs))
        | .scalar _ =>
          .error "TypeError: first argument must be of type string or an instance of Buffer"
      else .ok (.str "")
  | .bool =>
    .ok (.boolean (match lookup with
      | some df => df.value == FieldValue.scalar (some 1)
      | none => false))
  | .int32 =>
    .ok (match lookup with
      | none => .num 0
      | some df =>
        match df.value with
        | .scalar (some n) => .num n
        | .scalar none => .num 0
        | .bytes bs => .arr bs)

/-- The `Object.values(messageMeta).forEach` loop of decodeMessage
(decoder.ts lines 270-298): format every declared field and assign it to the
output record under its name. -/
def assembleFromMap (wireMap : Int → Option DecodedField) :
    List FieldMeta → (String → Option OutVal) → Except String (String → Option OutVal)
  | [], acc => .ok acc
  | meta :: rest, acc =>
    match formatField (wireMap (meta.number : Int)) meta.ftype with
    | .error e => .error e
    | .ok v => assembleFromMap wireMap rest (fun s => if s = meta.name then some v else acc s)

/-- decodeMessage with a schema (decoder.ts lines 236-301): scan the binary,
pull the metadata for the requested message, then assemble the typed record. -/
def decodeMessage (binary : List Nat) (protoDefinitionAst : List AstNode)
    (messageName : String) : Except String (String → Option OutVal) :=
  match getDecodedFieldNumberToWireFormatMap binary with
  | .error e => .error e
  | .ok wireMap =>
    match pullMessageMetadataFromAst protoDefinitionAst messageName with
    | .error e => .error e
    | .ok metas => assembleFromMap wireMap metas (fun _ => none)

/-! ## Reader / Lexer / Parser (the parser module)

The Reader's state is the remaining source, modelled as a `List Char`; all
Lexer/Parser operations thread that state explicitly.  `peek` runs `consume`
on a copy of the state and restores it (the source's
getCurrentSource/setCurrentSource pair), i.e. it returns the original
state. -/

/-- Lexical tokens of the schema language. -/
inductive Token where
  | keyword (value : String)
  | operator (value : String)
  | deliminator (value : String)
  | identifier (value : String)
  | intLit (value : Nat)
  | strLit (value : String)
  | eof
deriving DecidableEq, Repr

/-- The Lexer's isWhitespace (`/\s/`), restricted to the ASCII whitespace
characters that can occur in schema sources. -/
def jsWhitespace (c : Char) : Bool :=
  c == ' ' || c == '\t' || c == '\n' || c == '\r' || c == '\x0b' || c == '\x0c'

def isKeywordStr (s : String) : Bool :=
  (["syntax", "message", "int32", "bool", "string"] : List String).contains s

def isDelimStr (s : String) : Bool := (["\x7b", "\x7d", ";"] : List String).contains s

def isDelimChar (c : Char) : Bool := c == '\x7b' || c == '\x7d' || c == ';'

/-- The isIntegerLiteral test (`/^\d+$/`) on the accumulated run. -/
def isIntegerLiteralChars (l : List Char) : Bool := !l.isEmpty && l.all Char.isDigit

/-- The isStringLiteral test: the run starts with a double quote. -/
def isStringLiteralChars (l : List Char) : Bool := l.head? == some '"'

/-- The isIdentifier test (`/^[a-z][a-z0-9_]*$/i`). -/
def isIdentifierChars (l : List Char) : Bool :=
  match l with
  | [] => false
  | c :: rest => c.isAlpha && rest.all (fun d => d.isAlpha || d.isDigit || d == '_')

/-- The value `parseInt(value, 10)` gives on an all-digit run. -/
def digitsToNat (l : List Char) : Nat := l.foldl (fun acc c => acc * 10 + (c.toNat - 48)) 0

/-- getToken: classify one accumulated character run (first match wins, in
the source's order: keyword, deliminator, integer literal, string literal,
operator, identifier, lexical error). -/
def getToken (chars : List Char) : Except String Token :=
  let s := String.mk chars
  if isKeywordStr s then .ok (.keyword s)
  else if isDelimStr s then .ok (.deliminator s)
  else if isIntegerLiteralChars chars then .ok (.intLit (digitsToNat chars))
  else if isStringLiteralChars chars then
    .ok (.strLit (String.mk (chars.filter (fun c => c ≠ '"'))))
  else if s = "=" then .ok (.operator s)
  else if isIdentifierChars chars then .ok (.identifier s)
  else .error ("Could not ascertain token type from contents of: \"" ++ s ++ "\"")

/-- A character that continues an accumulated run: not whitespace, not a
deliminator (end-of-input ends the run implicitly). -/
def runChar (c : Char) : Bool := !jsWhitespace c && !isDelimChar c

/-- Lexer.consume (the third revision of the parser module): for each of the
`k` requested tokens, skip whitespace; at end-of-input push the eof token
and stop; a deliminator is a single-character token; otherwise accumulate a
maximal run and classify it. -/
def consumeLoop : List Char → Nat → Except String (List Token × List Char)
  | st, 0 => .ok ([], st)
  | st, k + 1 =>
    match st.dropWhile jsWhitespace with
    | [] => .ok ([Token.eof], [])
    | c :: rest =>
      if isDelimChar c then
        match getToken [c] with
        | .error e => .error e
        | .ok t =>
          match consumeLoop rest k with
          | .error e => .error e
          | .ok (ts, st2) => .ok (t :: ts, st2)
      else
        match getToken ((c :: rest).takeWhile runChar) with
        | .error e => .error e
        | .ok t =>
          match consumeLoop ((c :: rest).dropWhile runChar) k with
          | .error e => .error e
          | .ok (ts, st2) => .ok (t :: ts, st2)

/-- Lexer.consume with its default argument of 1: unwraps the singleton
token list (the source throws when more than one token came back; an empty
result cannot occur since one loop iteration always pushes a token). -/
def consumeOne (st : List Char) : Except String (Token × List Char) :=
  match consumeLoop st 1 with
  | .error e => .error e
  | .ok ([t], st1) => .ok (t, st1)
  | .ok _ => .error "expected only one token to be consumed"

/-- Lexer.peek: copy the reader state, consume, restore the state. -/
def peekTokens (st : List Char) (k : Nat) : Except String (List Token × List Char) :=
  match consumeLoop st k with
  | .error e => .error e
  | .ok (ts, _) => .ok (ts, st)

/-- Lexer.peek with its default argument of 1. -/
def peekOne (st : List Char) : Except String Token :=
  match consumeOne st with
  | .error e => .error e
  | .ok (t, _) => .ok t

/-- Parser.consumeAndAssertSemiColonDelim. -/
def consumeAssertSemi (st : List Char) : Except String (List Char) :=
  match consumeOne st with
  | .error e => .error e
  | .ok (t, st1) =>
    if t = Token.deliminator ";" then .ok st1
    else .error "expected a deliminator"

/-- Keyword text to field type, after `message`/`syntax` were excluded. -/
def fieldTypeOfKw (v : String) : FieldType :=
  if v = "bool" then .bool else if v = "int32" then .int32 else .string

/-- One iteration of Parser.consumeMessage's body loop, after the guard
check: `inl` exits the loop (closing brace or error), `inr` continues with
the new state and body.  A consume(4) result shorter than 4 tokens always
ends in the eof token, so the semicolon assertion that the source runs first
fails before any undefined index could be read; the TypeError arm is the
faithful totalization of that unreachable read. -/
def messageStep (st : List Char) (body : List AstNode) :
    Except String (List AstNode × List Char) ⊕ (List Char × List AstNode) :=
  match peekOne st with
  | .error e => .inl (.error e)
  | .ok t =>
    if t = Token.deliminator "\x7d" then
      match consumeOne st with
      | .error e => .inl (.error e)
      | .ok (_, st1) => .inl (.ok (body, st1))
    else
      match t with
      | .keyword v =>
        if v = "bool" ∨ v = "int32" ∨ v = "string" then
          match consumeLoop st 4 with
          | .error e => .inl (.error e)
          | .ok (res, st1) =>
            match consumeAssertSemi st1 with
            | .error e => .inl (.error e)
            | .ok st2 =>
              match res with
              | [t0, t1, t2, t3] =>
                match t0 with
                | .keyword v0 =>
                  if v0 = "message" ∨ v0 = "syntax" then .inl (.error "")
                  else
                    match t1 with
                    | .identifier nm =>
                      if t2 = Token.operator "=" then
                        match t3 with
                        | .intLit num =>
                          .inr (st2, body ++ [.field (fieldTypeOfKw v0) nm num])
                        | _ =>
                          .inl (.error
                            "expected integer-literal for field number after type declaration")
                      else
                        .inl (.error
                          "expected integer-literal for field number after type declaration")
                    | _ => .inl (.error "expected identifier after type declaration")
                | _ => .inl (.error "")
              | _ => .inl (.error "TypeError: cannot read properties of undefined")
        else .inl (.error "Unexpected code path, likely don't support the field type.")
      | _ => .inl (.error "expected keyword inside message body")

/-- Parser.consumeMessage's body loop: the source initializes
`infiniteLoopGuard = 1000`, checks it for zero at the top of every iteration
and decrements it before the iteration's work, so the counter argument is
exactly the number of iterations still allowed. -/
def consumeMessageLoop : List Char → List AstNode → Nat → Except String (List AstNode × List Char)
  | _, _, 0 => .error "unable to parse message, saw more than 1000 iterations"
  | st, body, g + 1 =>
    match messageStep st body with
    | .inl r => r
    | .inr (st', body') => consumeMessageLoop st' body' g

/-- Parser.consumeMessage: consume `message <name> \x7b`, then run the body
loop with its guard of 1000.  A consume(3) result shorter than 3 ends in the
eof token, which fails the identifier / opening-brace assertions exactly as
the source's checks do. -/
def consumeMessage (st : List Char) : Except String (AstNode × List Char) :=
  match consumeLoop st 3 with
  | .error e => .error e
  | .ok (cs, st1) =>
    match cs with
    | [_, nameTok, openTok] =>
      match nameTok with
      | .identifier nm =>
        if openTok = Token.deliminator "\x7b" then
          match consumeMessageLoop st1 [] 1000 with
          | .error e => .error e
          | .ok (body, st2) => .ok (.message nm body, st2)
        else .error "expected left curly after message identifier"
      | _ => .error "expected identifier after message statement"
    | [_, nameTok] =>
      match nameTok with
      | .identifier _ => .error "TypeError: cannot read properties of undefined"
      | _ => .error "expected identifier after message statement"
    | _ => .error "TypeError: cannot read properties of undefined"

/-- One iteration of Parser.parse's top-level dispatch (after the eof and
iteration-limit checks): `inl` exits with a result, `inr` continues.  As in
messageStep, a short consume(3) result ends in eof and is caught by the
semicolon assertion the source runs before indexing. -/
def parseDispatch (st : List Char) (t : Token) (acc : List AstNode) :
    Except String (List AstNode) ⊕ (List Char × List AstNode) :=
  match t with
  | .keyword v =>
    if v = "syntax" then
      match consumeLoop st 3 with
      | .error e => .inl (.error e)
      | .ok (cs, st1) =>
        match consumeAssertSemi st1 with
        | .error e => .inl (.error e)
        | .ok st2 =>
          match cs with
          | [_, t1, t2] =>
            if t1 = Token.operator "=" then
              if t2 = Token.strLit "proto3" then
                .inr (st2, acc ++ [.syntaxDecl "proto3"])
              else .inl (.error "expected \"proto3\" after syntax assignment operator")
            else .inl (.error "expected assignment operator after syntax keyword")
          | [_, t1] =>
            if t1 = Token.operator "=" then
              .inl (.error "TypeError: cannot read properties of undefined")
            else .inl (.error "expected assignment operator after syntax keyword")
          | _ => .inl (.error "TypeError: cannot read properties of undefined")
    else if v = "message" then
      match consumeMessage st with
      | .error e => .inl (.error e)
      | .ok (node, st1) => .inr (st1, acc ++ [node])
    else .inl (.error "unknown token at root level")
  | _ => .inl (.error "unknown token at root level")

/-- Parser.parse's top-level loop: peek (the while condition), stop at eof,
fail once the iteration counter exceeds 50, otherwise dispatch and continue
with the counter incremented. -/
def parseLoop (st : List Char) (lim : Nat) (acc : List AstNode) :
    Except String (List AstNode) :=
  match peekOne st with
  | .error e => .error e
  | .ok t =>
    if t = Token.eof then .ok acc
    else if h : lim > 50 then .error "too much loopy boi"
    else
      match parseDispatch st t acc with
      | .inl r => r
      | .inr (st', acc') => parseLoop st' (lim + 1) acc'
termination_by 51 - lim
decreasing_by omega

/-- The Lexer constructor's preprocessing:
`proto.trim().replaceAll("\n", "")`. -/
def preprocess (s : String) : List Char :=
  (((s.toList.dropWhile jsWhitespace).reverse.dropWhile jsWhitespace).reverse).filter
    (fun c => c ≠ '\n')

/-- Parser.parse: run the top-level loop on the preprocessed source with the
iteration counter starting at 0. -/
def parseProto (proto : String) : Except String (List AstNode) :=
  parseLoop (preprocess proto) 0 []

/-- Parser.parse's top-level loop with an explicit iteration budget: `none`
means the budget was exhausted before the loop finished.  Used to state that
the loop always finishes within a bounded number of iterations. -/
def parseIterF : List Char → Nat → List AstNode → Nat → Option (Except String (List AstNode))
  | _, _, _, 0 => none
  | st, lim, acc, fuel + 1 =>
    match peekOne st with
    | .error e => some (.error e)
    | .ok t =>
      if t = Token.eof then some (.ok acc)
      else if lim > 50 then some (.error "too much loopy boi")
      else
        match parseDispatch st t acc with
        | .inl r => some r
        | .inr (st', acc') => parseIterF st' (lim + 1) acc' fuel

/-- Parser.consumeMessage's body loop with an explicit iteration budget. -/
def consumeMessageIterF :
    List Char → List AstNode → Nat → Nat → Option (Except String (List AstNode × List Char))
  | _, _, _, 0 => none
  | st, body, g, fuel + 1 =>
    match g with
    | 0 => some (.error "unable to parse message, saw more than 1000 iterations")
    | g' + 1 =>
      match messageStep st body with
      | .inl r => some r
      | .inr (st', body') => consumeMessageIterF st' body' g' fuel

instance {α β : Type} [DecidableEq α] [DecidableEq β] : DecidableEq (Except α β) := fun a b =>
  match a, b with
  | .ok x, .ok y =>
    if h : x = y then .isTrue (by rw [h]) else .isFalse (by intro hc; injection hc; exact h ‹_›)
  | .error x, .error y =>
    if h : x = y then .isTrue (by rw [h]) else .isFalse (by intro hc; injection hc; exact h ‹_›)
  | .ok _, .error _ => .isFalse (by intro hc; exact Except.noConfusion hc)
  | .error _, .ok _ => .isFalse (by intro hc; exact Except.noConfusion hc)

/-! ## Varint lemmas -/

/-- The byte sequence `bs` sits in `binary` starting at index `i`. -/
def bytesAt (binary : List Nat) (i : Nat) (bs : List Nat) : Prop :=
  (binary.drop i).take bs.length = bs

instance (binary : List Nat) (i : Nat) (bs : List Nat) : Decidable (bytesAt binary i bs) := by
  unfold bytesAt
  infer_instance

theorem bytesAt_get? {binary : List Nat} {i : Nat} {bs : List Nat} (h : bytesAt binary i bs)
    {k : Nat} (hk : k < bs.length) : binary.get? (i + k) = bs.get? k := by
  calc binary.get? (i + k) = (binary.drop i).get? k := (List.get?_drop binary i k).symm
    _ = ((binary.drop i).take bs.length).get? k := (List.get?_take hk).symm
    _ = bs.get? k := by rw [h]

theorem bytesAt_getD {binary : List Nat} {i : Nat} {bs : List Nat} (h : bytesAt binary i bs)
    {k : Nat} (hk : k < bs.length) : binary.getD (i + k) 0 = bs.getD k 0 := by
  unfold List.getD
  rw [bytesAt_get? h hk]

theorem bytesAt_tail {binary : List Nat} {i : Nat} {b : Nat} {rest : List Nat}
    (h : bytesAt binary i (b :: rest)) : bytesAt binary (i + 1) rest := by
  unfold bytesAt at h ⊢
  rw [← List.drop_drop]
  cases hd : binary.drop i with
  | nil => rw [hd] at h; simp at h
  | cons x xs =>
    rw [hd] at h
    simp only [List.length_cons, List.take_succ_cons, List.cons.injEq] at h
    simpa using h.2

set_option maxRecDepth 2048 in
/-- A byte below 256 with the continuation bit clear is unchanged by the
`& 0x7f` mask. -/
theorem land127_of_clear : ∀ b : Nat, b < 256 → b &&& 128 = 0 → b &&& 127 = b := by decide

theorem takeVarintBytes_eq {bs : List Nat} (hv : isVarintBytes bs = true) :
    ∀ l : List Nat, l.take bs.length = bs → takeVarintBytes l = bs := by
  induction bs with
  | nil => simp [isVarintBytes] at hv
  | cons b rest ih =>
    intro l hl
    cases l with
    | nil => simp at hl
    | cons x xs =>
      simp only [List.length_cons, List.take_succ_cons, List.cons.injEq] at hl
      obtain ⟨rfl, hxs⟩ := hl
      cases rest with
      | nil =>
        simp only [isVarintBytes, beq_iff_eq] at hv
        simp [takeVarintBytes, hv]
      | cons r rs =>
        simp only [isVarintBytes, Bool.and_eq_true, bne_iff_ne, ne_eq] at hv
        simp only [takeVarintBytes, if_pos hv.1]
        rw [ih hv.2 xs hxs]

theorem varint_fold (bs : List Nat) :
    ((bs.map (· &&& 127)).reverse).foldl (fun acc b => acc * 128 + b) 0 = varintLE bs := by
  rw [List.foldl_reverse]
  induction bs with
  | nil => simp [varintLE]
  | cons b rest ih =>
    simp only [List.map_cons, List.foldr_cons, varintLE, ih]
    ring

theorem roundDouble_eq_of_lt {n : Nat} (h : n < 9007199254740992) : roundDouble n = n := by
  unfold roundDouble
  rw [if_pos h]

/-- parseVarint on a well-formed varint byte sequence sitting in the buffer,
whose value is below 2^53 (so the double conversion is exact): the value is
the little-endian concatenation of the masked 7-bit groups and the next
index advances by the byte count. -/
theorem parseVarint_spec {binary : List Nat} {i : Nat} {bs : List Nat}
    (hv : isVarintBytes bs = true) (hlt : ∀ b ∈ bs, b < 256) (hat : bytesAt binary i bs)
    (hsmall : varintLE bs < 9007199254740992) :
    parseVarint binary i = { value := some (varintLE bs), nextByteIndex := i + bs.length } := by
  cases bs with
  | nil => simp [isVarintBytes] at hv
  | cons b rest =>
    have hget : binary.get? i = some b := by
      have h0 : binary.get? (i + 0) = (b :: rest).get? 0 := bytesAt_get? hat (by simp)
      simpa using h0
    have hgetE : binary[i]? = some b := by rw [← List.get?_eq_getElem?]; exact hget
    have hgd : binary.getD i 0 = b := by simp [List.getD, hgetE]
    cases rest with
    | nil =>
      simp only [isVarintBytes, beq_iff_eq] at hv
      unfold parseVarint
      rw [hgd, if_pos (by simp [hv])]
      have hmask : b &&& 127 = b := land127_of_clear b (hlt b (by simp)) hv
      simp [hget, hgetE, varintLE, hmask]
    | cons r rs =>
      have hcont : b &&& 128 ≠ 0 := by
        simp only [isVarintBytes, Bool.and_eq_true, bne_iff_ne, ne_eq] at hv
        exact hv.1
      unfold parseVarint
      rw [hgd, if_neg (by simpa using hcont)]
      have htake : takeVarintBytes (binary.drop i) = b :: r :: rs :=
        takeVarintBytes_eq hv (binary.drop i) hat
      simp only [htake, varint_fold, roundDouble_eq_of_lt hsmall]

/-- The next index parseVarint reports after a well-formed in-buffer varint
is the offset advanced by the byte count, regardless of the value (the
double rounding only affects the value). -/
theorem parseVarint_next {binary : List Nat} {i : Nat} {bs : List Nat}
    (hv : isVarintBytes bs = true) (hat : bytesAt binary i bs) :
    (parseVarint binary i).nextByteIndex = i + bs.length := by
  cases bs with
  | nil => simp [isVarintBytes] at hv
  | cons b rest =>
    have hget : binary.get? i = some b := by
      have h0 : binary.get? (i + 0) = (b :: rest).get? 0 := bytesAt_get? hat (by simp)
      simpa using h0
    have hgetE : binary[i]? = some b := by rw [← List.get?_eq_getElem?]; exact hget
    have hgd : binary.getD i 0 = b := by simp [List.getD, hgetE]
    cases rest with
    | nil =>
      simp only [isVarintBytes, beq_iff_eq] at hv
      unfold parseVarint
      rw [hgd, if_pos (by simp [hv])]
      simp
    | cons r rs =>
      have hcont : b &&& 128 ≠ 0 := by
        simp only [isVarintBytes, Bool.and_eq_true, bne_iff_ne, ne_eq] at hv
        exact hv.1
      unfold parseVarint
      rw [hgd, if_neg (by simpa using hcont)]
      simp only [takeVarintBytes_eq hv (binary.drop i) hat, List.length_cons]

/-! ## Lemmas for the tag parser -/

theorem wireTypeMap_none (m : Nat) (h0 : m ≠ 0) (h1 : m ≠ 1) (h2 : m ≠ 2) (h5 : m ≠ 5) :
    wireTypeMap m = none := by
  match m with
  | 0 => exact absurd rfl h0
  | 1 => exact absurd rfl h1
  | 2 => exact absurd rfl h2
  | 3 => rfl
  | 4 => rfl
  | 5 => exact absurd rfl h5
  | n + 6 => rfl

theorem jsShr3_small {n : Nat} (h : n < 2147483648) : jsShr3 n = ((n >>> 3 : Nat) : Int) := by
  unfold jsShr3
  rw [Nat.mod_eq_of_lt (by omega), if_pos h, Nat.shiftRight_eq_div_pow]

/-- parseFieldNumber on a well-formed varint tag whose value stays below
2^31: the field number is the tag value shifted right 3 bits. -/
theorem parseFieldNumber_spec {binary : List Nat} {i : Nat} {bs : List Nat}
    (hv : isVarintBytes bs = true) (hlt : ∀ b ∈ bs, b < 256) (hat : bytesAt binary i bs)
    (hsmall : varintLE bs < 2147483648) :
    parseFieldNumber binary i =
      { fieldNumber := ((varintLE bs >>> 3 : Nat) : Int), nextByteIndex := i + bs.length } := by
  cases bs with
  | nil => simp [isVarintBytes] at hv
  | cons b rest =>
    have hget : binary.get? i = some b := by
      have h0 : binary.get? (i + 0) = (b :: rest).get? 0 := bytesAt_get? hat (by simp)
      simpa using h0
    have hgetE : binary[i]? = some b := by rw [← List.get?_eq_getElem?]; exact hget
    have hgd : binary.getD i 0 = b := by simp [List.getD, hgetE]
    cases rest with
    | nil =>
      simp only [isVarintBytes, beq_iff_eq] at hv
      have hmask : b &&& 127 = b := land127_of_clear b (hlt b (by simp)) hv
      have hLE : varintLE [b] = b := by simp [varintLE, hmask]
      unfold parseFieldNumber
      rw [hgd, if_pos (by simp [hv]), hLE, jsShr3_small (hLE ▸ hsmall)]
      simp
    | cons r rs =>
      have hcont : b &&& 128 ≠ 0 := by
        simp only [isVarintBytes, Bool.and_eq_true, bne_iff_ne, ne_eq] at hv
        exact hv.1
      unfold parseFieldNumber
      rw [hgd, if_neg (by simpa using hcont)]
      rw [parseVarint_spec hv hlt hat (by omega)]
      simp only [Option.getD_some]
      rw [jsShr3_small hsmall]

/-! ## Lemmas for LEN values -/

/-- The byte reads the LEN loop performs over an in-buffer range are exactly
the buffer contents there. -/
theorem rangeMap_bytesAt {binary : List Nat} :
    ∀ (cs : List Nat) (j : Nat), bytesAt binary j cs →
      (List.range cs.length).map (fun k => binary.get? (j + k)) = cs.map some := by
  intro cs
  induction cs with
  | nil => intro j _; simp
  | cons c cs' ih =>
    intro j hat
    have hc : binary.get? j = some c := by
      have h0 : binary.get? (j + 0) = (c :: cs').get? 0 := bytesAt_get? hat (by simp)
      simpa using h0
    have htail := bytesAt_tail hat
    rw [List.length_cons, List.range_succ_eq_map, List.map_cons, List.map_map]
    rw [Nat.add_zero, hc, List.map_cons]
    congr 1
    rw [← ih (j + 1) htail]
    apply List.map_congr_left
    intro k _
    simp only [Function.comp_apply, Nat.succ_eq_add_one]
    congr 1
    omega

/-! ## Lookup in the scanned field map -/

theorem foldl_mapAssign_lookup :
    ∀ (rs : List (Int × DecodedField)) (m0 : Int → Option DecodedField) (k : Int),
      (rs.foldl mapAssign m0) k =
        match rs.reverse.find? (fun r => r.1 == k) with
        | some r => some r.2
        | none => m0 k := by
  intro rs
  induction rs with
  | nil => intro m0 k; simp
  | cons r rest ih =>
    intro m0 k
    rw [List.foldl_cons, ih, List.reverse_cons, List.find?_append]
    cases hfind : rest.reverse.find? (fun q => q.1 == k) with
    | some q => simp [Option.orElse]
    | none =>
      simp only [Option.orElse, Option.none_orElse]
      cases hq : [r].find? (fun q => q.1 == k) with
      | some q =>
        simp only [List.find?_singleton] at hq
        by_cases hk : r.1 == k
        · rw [if_pos hk] at hq
          injection hq with hq
          subst hq
          simp [mapAssign, (beq_iff_eq.mp hk).symm]
        · rw [if_neg hk] at hq
          exact Option.noConfusion hq
      | none =>
        simp only [List.find?_singleton] at hq
        by_cases hk : r.1 == k
        · rw [if_pos hk] at hq
          exact Option.noConfusion hq
        · have hne : k ≠ r.1 := Ne.symm (by simpa using hk)
          simp [mapAssign, hne]

/-! ## Claim theorems -/

/-- C1 as stated is false of the program: parseVarint computes
`parseInt(concatenatedBinaryString, 2)`, an IEEE-754 double, so the
well-formed 8-byte varint `[0xFF ×7, 0x7F]` — which encodes 2^56 - 1 —
decodes to the rounded 2^56, not to the exact masked little-endian
concatenation. -/
theorem c1_counterexample :
    isVarintBytes [0xFF, 0xFF, 0xFF, 0xFF, 0xFF, 0xFF, 0xFF, 0x7F] = true ∧
    varintLE [0xFF, 0xFF, 0xFF, 0xFF, 0xFF, 0xFF, 0xFF, 0x7F] = 72057594037927935 ∧
    parseVarint [0xFF, 0xFF, 0xFF, 0xFF, 0xFF, 0xFF, 0xFF, 0x7F] 0 =
      { value := some 72057594037927936, nextByteIndex := 8 } ∧
    (72057594037927936 : Nat) ≠ 72057594037927935 := by
  refine ⟨by decide, by decide, ?_, by decide⟩
  have hround : roundDouble 72057594037927935 = 72057594037927936 := by
    have hlog : Nat.log2 72057594037927935 = 55 := by
      rw [Nat.log2_eq_log_two]
      exact Nat.log_eq_of_pow_le_of_lt_pow (by norm_num) (by norm_num)
    unfold roundDouble
    rw [if_neg (by norm_num), hlog]
    norm_num
  have hfold : ((takeVarintBytes
        (List.drop 0 [0xFF, 0xFF, 0xFF, 0xFF, 0xFF, 0xFF, 0xFF, 0x7F])).map
          (· &&& 127)).reverse.foldl (fun acc b => acc * 128 + b) 0 = 72057594037927935 := by
    decide
  have hlen : (takeVarintBytes
      (List.drop 0 [0xFF, 0xFF, 0xFF, 0xFF, 0xFF, 0xFF, 0xFF, 0x7F])).length = 8 := by decide
  unfold parseVarint
  rw [if_neg (by decide)]
  simp only [hfold, hlen, hround]

/-- C1 (amended): for every byte buffer and offset at which a well-formed
varint begins (each byte before the last has the continuation bit set, the
last has it clear, all within the buffer), parseVarint advances the offset
by the number of varint bytes, and — provided the masked little-endian
concatenation of the 7-bit groups (`varintLE`) is below 2^53 — returns
exactly that unsigned integer (larger varints are rounded to the nearest
IEEE-754 double by parseInt); in particular the bytes `[0xAC, 0x02]` decode
to 300. -/
theorem c1_parseVarint_value :
    (∀ (binary : List Nat) (i : Nat) (bs : List Nat),
      isVarintBytes bs = true → (∀ b ∈ bs, b < 256) → bytesAt binary i bs →
      varintLE bs < 9007199254740992 →
      parseVarint binary i =
        { value := some (varintLE bs), nextByteIndex := i + bs.length }) ∧
    (∀ (binary : List Nat) (i : Nat) (bs : List Nat),
      isVarintBytes bs = true → bytesAt binary i bs →
      (parseVarint binary i).nextByteIndex = i + bs.length) ∧
    varintLE [0xAC, 0x02] = 300 ∧
    parseVarint [0xAC, 0x02] 0 = { value := some 300, nextByteIndex := 2 } :=
  ⟨fun _ _ _ hv hlt hat hsmall => parseVarint_spec hv hlt hat hsmall,
    fun _ _ _ hv hat => parseVarint_next hv hat, by decide, by decide⟩

theorem c1_parseVarint_value_witness :
    (isVarintBytes [0xAC, 0x02] = true ∧ (∀ b ∈ [0xAC, 0x02], b < 256) ∧
      bytesAt [0xAC, 0x02] 0 [0xAC, 0x02] ∧ varintLE [0xAC, 0x02] < 9007199254740992) ∧
    parseVarint [0xAC, 0x02] 0 =
      { value := some (varintLE [0xAC, 0x02]), nextByteIndex := 0 + [0xAC, 0x02].length } :=
  ⟨⟨by decide, by decide, by decide, by decide⟩,
    c1_parseVarint_value.1 [0xAC, 0x02] 0 [0xAC, 0x02] (by decide) (by decide) (by decide)
      (by decide)⟩

/-- C4 as stated is false: the field number is computed with JavaScript's
signed 32-bit `>>`, so a well-formed tag varint of value 2^31 (bytes
`[0x80, 0x80, 0x80, 0x80, 0x08]`) yields field number -268435456, not the
tag value shifted right 3 bits (268435456). -/
theorem c4_counterexample :
    isVarintBytes [0x80, 0x80, 0x80, 0x80, 0x08] = true ∧
    varintLE [0x80, 0x80, 0x80, 0x80, 0x08] = 2147483648 ∧
    (2147483648 : Nat) >>> 3 = 268435456 ∧
    parseFieldNumber [0x80, 0x80, 0x80, 0x80, 0x08] 0 =
      { fieldNumber := -268435456, nextByteIndex := 5 } ∧
    (-268435456 : Int) ≠ (268435456 : Int) := by
  refine ⟨by decide, by decide, by decide, by decide, by decide⟩

/-- C4 (amended): the tag parser fails with an unknown-wire-type error
exactly when the tag byte's low 3 bits are outside {0, 1, 2, 5}; otherwise
it returns the wire type given by 0→VARINT, 1→I64, 2→LEN, 5→I32; and for a
well-formed tag varint whose value is below 2^31 the field number is the
decoded tag value shifted right 3 bits (larger tag values are wrapped by
JavaScript's signed 32-bit shift).  The single byte 0x50 yields field number
10 and wire type VARINT. -/
theorem c4_tag_parsing :
    (∀ b : Nat, (∃ e, parseFieldType b = .error e) ↔
      ¬(b &&& 7 = 0 ∨ b &&& 7 = 1 ∨ b &&& 7 = 2 ∨ b &&& 7 = 5)) ∧
    (∀ b : Nat, b &&& 7 = 0 → parseFieldType b = .ok .VARINT) ∧
    (∀ b : Nat, b &&& 7 = 1 → parseFieldType b = .ok .I64) ∧
    (∀ b : Nat, b &&& 7 = 2 → parseFieldType b = .ok .LEN) ∧
    (∀ b : Nat, b &&& 7 = 5 → parseFieldType b = .ok .I32) ∧
    (∀ (binary : List Nat) (i : Nat) (bs : List Nat),
      isVarintBytes bs = true → (∀ b ∈ bs, b < 256) → bytesAt binary i bs →
      varintLE bs < 2147483648 →
      parseFieldNumber binary i =
        { fieldNumber := ((varintLE bs >>> 3 : Nat) : Int),
          nextByteIndex := i + bs.length }) ∧
    parseFieldNumber [0x50] 0 = { fieldNumber := 10, nextByteIndex := 1 } ∧
    parseFieldType 0x50 = .ok .VARINT := by
  refine ⟨?_, ?_, ?_, ?_, ?_,
    fun _ _ _ hv hlt hat hs => parseFieldNumber_spec hv hlt hat hs, by decide, rfl⟩
  · intro b
    constructor
    · rintro ⟨e, he⟩ hmem
      have hcomm : 7 &&& b = b &&& 7 := Nat.land_comm 7 b
      unfold parseFieldType at he
      rcases hmem with h | h | h | h <;>
        (rw [hcomm, h] at he; exact Except.noConfusion he)
    · intro hmem
      have hcomm : 7 &&& b = b &&& 7 := Nat.land_comm 7 b
      push_neg at hmem
      obtain ⟨h0, h1, h2, h5⟩ := hmem
      refine ⟨"Unknown wire type = \"" ++ toString (b &&& 7) ++ "\" (decimal)", ?_⟩
      unfold parseFieldType
      rw [hcomm]
      simp only [wireTypeMap_none (b &&& 7) h0 h1 h2 h5]
  · intro b h
    unfold parseFieldType
    rw [Nat.land_comm 7 b, h]
    rfl
  · intro b h
    unfold parseFieldType
    rw [Nat.land_comm 7 b, h]
    rfl
  · intro b h
    unfold parseFieldType
    rw [Nat.land_comm 7 b, h]
    rfl
  · intro b h
    unfold parseFieldType
    rw [Nat.land_comm 7 b, h]
    rfl

theorem c4_tag_parsing_witness :
    ((0x50 : Nat) &&& 7 = 0 ∧ isVarintBytes [0x50] = true ∧ bytesAt [0x50] 0 [0x50] ∧
      varintLE [0x50] < 2147483648) ∧
    parseFieldType 0x50 = .ok .VARINT ∧
    parseFieldNumber [0x50] 0 =
      { fieldNumber := ((varintLE [0x50] >>> 3 : Nat) : Int), nextByteIndex := 0 + [0x50].length } :=
  ⟨⟨by decide, by decide, by decide, by decide⟩,
    c4_tag_parsing.2.1 0x50 (by decide),
    c4_tag_parsing.2.2.2.2.2.1 [0x50] 0 [0x50] (by decide) (by decide) (by decide) (by decide)⟩

/-- C5: parseFieldValue with wire type LEN, when the length varint decodes
to N and the N following bytes lie within the buffer, returns exactly those
N bytes verbatim and advances the offset by N plus the byte length of the
length varint.  The `varintLE bs < 2^53` hypothesis keeps the length
varint's double conversion exact; it holds for every realizable buffer,
since the N declared bytes must fit in it and JavaScript buffers are far
smaller than 2^53 bytes. -/
theorem c5_len_verbatim :
    ∀ (binary : List Nat) (i : Nat) (bs cs : List Nat),
      isVarintBytes bs = true → (∀ b ∈ bs, b < 256) → bytesAt binary i bs →
      bytesAt binary (i + bs.length) cs → cs.length = varintLE bs →
      varintLE bs < 9007199254740992 →
      parseFieldValue binary i .LEN =
        { value := .bytes (cs.map some),
          nextByteIndex := some (i + bs.length + varintLE bs) } := by
  intro binary i bs cs hv hlt hat hcs hlen hsmall
  have hvar := parseVarint_spec hv hlt hat hsmall
  rw [parseFieldValue_len_eq, hvar]
  simp only []
  rw [← hlen, rangeMap_bytesAt cs (i + bs.length) hcs, hlen]

theorem c5_len_verbatim_witness :
    (isVarintBytes [11] = true ∧ varintLE [11] < 9007199254740992 ∧
      bytesAt [0x0b, 0x68, 0x65, 0x6c, 0x6c, 0x6f, 0x20, 0x77, 0x6f, 0x72, 0x6c, 0x64] 0 [11] ∧
      bytesAt [0x0b, 0x68, 0x65, 0x6c, 0x6c, 0x6f, 0x20, 0x77, 0x6f, 0x72, 0x6c, 0x64] 1
        [0x68, 0x65, 0x6c, 0x6c, 0x6f, 0x20, 0x77, 0x6f, 0x72, 0x6c, 0x64]) ∧
    parseFieldValue [0x0b, 0x68, 0x65, 0x6c, 0x6c, 0x6f, 0x20, 0x77, 0x6f, 0x72, 0x6c, 0x64]
        0 .LEN =
      { value := .bytes ([0x68, 0x65, 0x6c, 0x6c, 0x6f, 0x20, 0x77, 0x6f, 0x72, 0x6c,
          0x64].map some)
        nextByteIndex := some (0 + [(11 : Nat)].length + varintLE [11]) } :=
  ⟨⟨by decide, by decide, by decide, by decide⟩,
    c5_len_verbatim _ 0 [11] [0x68, 0x65, 0x6c, 0x6c, 0x6f, 0x20, 0x77, 0x6f, 0x72, 0x6c, 0x64]
      (by decide) (by decide) (by decide) (by decide) (by decide) (by decide)⟩

/-- C9: parseFieldValue with wire type LEN never raises an error: it always
returns a byte-list value; whenever the length varint decodes to a number N
the list has exactly N entries, each the raw (possibly out-of-bounds) buffer
read, and the next offset is the length varint's end plus N — which can
point past the end of the buffer, as the final conjunct exhibits. -/
theorem c9_len_total :
    (∀ (binary : List Nat) (i : Nat), ∃ vs onext,
      parseFieldValue binary i .LEN = { value := .bytes vs, nextByteIndex := onext }) ∧
    (∀ (binary : List Nat) (i n : Nat), (parseVarint binary i).value = some n →
      parseFieldValue binary i .LEN =
        { value := .bytes ((List.range n).map (fun k =>
            binary.get? ((parseVarint binary i).nextByteIndex + k)))
          nextByteIndex := some ((parseVarint binary i).nextByteIndex + n) } ∧
      ((List.range n).map (fun k =>
        binary.get? ((parseVarint binary i).nextByteIndex + k))).length = n) ∧
    (∃ (binary : List Nat) (i n m : Nat), (parseVarint binary i).value = some n ∧
      (parseFieldValue binary i .LEN).nextByteIndex = some m ∧ binary.length < m) := by
  refine ⟨?_, ?_, ⟨[5], 0, 5, 6, by decide, by decide, by decide⟩⟩
  · intro binary i
    rw [parseFieldValue_len_eq]
    cases hres : (parseVarint binary i).value with
    | none => exact ⟨[], none, rfl⟩
    | some n => exact ⟨_, _, rfl⟩
  · intro binary i n hres
    constructor
    · rw [parseFieldValue_len_eq, hres]
    · simp

theorem c9_len_total_witness :
    (parseVarint [5] 0).value = some 5 ∧
    parseFieldValue [5] 0 .LEN =
      { value := .bytes ((List.range 5).map (fun k =>
          [5].get? ((parseVarint [5] 0).nextByteIndex + k)))
        nextByteIndex := some ((parseVarint [5] 0).nextByteIndex + 5) } :=
  ⟨by decide, (c9_len_total.2.1 [5] 0 5 (by decide)).1⟩

/-- C6: the scan maps every field number to the wire type and value of its
last occurrence in left-to-right order — the raw field map built from the
scan records agrees, at every field number, with the last scan record for
that number (later occurrences overwrite earlier ones). -/
theorem c6_last_occurrence_wins :
    ∀ (binary : List Nat) (rs : List (Int × DecodedField)),
      scanFrom binary 0 = .ok rs →
      ∃ m, getDecodedFieldNumberToWireFormatMap binary = .ok m ∧
        ∀ f, m f = (rs.reverse.find? (fun r => r.1 == f)).map Prod.snd := by
  intro binary rs hscan
  refine ⟨rs.foldl mapAssign (fun _ => none), ?_, ?_⟩
  · unfold getDecodedFieldNumberToWireFormatMap
    rw [hscan]
  · intro f
    rw [foldl_mapAssign_lookup]
    cases hfind : rs.reverse.find? (fun r => r.1 == f) <;> simp

theorem c6_last_occurrence_wins_witness :
    scanFrom [0x08, 5, 0x08, 7] 0 =
      .ok [(1, ⟨.VARINT, .scalar (some 5)⟩), (1, ⟨.VARINT, .scalar (some 7)⟩)] ∧
    ∃ m, getDecodedFieldNumberToWireFormatMap [0x08, 5, 0x08, 7] = .ok m ∧
      ∀ f, m f = (([(1, (⟨.VARINT, .scalar (some 5)⟩ : DecodedField)),
        (1, ⟨.VARINT, .scalar (some 7)⟩)].reverse).find? (fun r => r.1 == f)).map Prod.snd := by
  have h2 : scanFrom [0x08, 5, 0x08, 7] 4 = .ok [] := scanFrom_stop _ _ (by decide)
  have h1 : scanFrom [0x08, 5, 0x08, 7] 2 = .ok [(1, ⟨.VARINT, .scalar (some 7)⟩)] := by
    have := scanFrom_step [0x08, 5, 0x08, 7] 2 0x08 .VARINT 4 [] (by decide) rfl (by decide) h2
    simpa using this
  have h0 : scanFrom [0x08, 5, 0x08, 7] 0 =
      .ok [(1, ⟨.VARINT, .scalar (some 5)⟩), (1, ⟨.VARINT, .scalar (some 7)⟩)] := by
    have := scanFrom_step [0x08, 5, 0x08, 7] 0 0x08 .VARINT 2 _ (by decide) rfl (by decide) h1
    simpa using this
  exact ⟨h0, c6_last_occurrence_wins _ _ h0⟩

/-! ## Assembler lemmas -/

theorem assembleFromMap_frame (wm : Int → Option DecodedField) :
    ∀ (metas : List FieldMeta) (acc r : String → Option OutVal),
      assembleFromMap wm metas acc = .ok r →
      ∀ s, (∀ m ∈ metas, m.name ≠ s) → r s = acc s := by
  intro metas
  induction metas with
  | nil =>
    intro acc r h s _
    simp only [assembleFromMap] at h
    injection h with h
    rw [← h]
  | cons m0 rest ih =>
    intro acc r h s hs
    simp only [assembleFromMap] at h
    cases hf : formatField (wm (m0.number : Int)) m0.ftype with
    | error e => rw [hf] at h; exact Except.noConfusion h
    | ok v =>
      rw [hf] at h
      rw [ih _ r h s (fun m hm => hs m (List.mem_cons_of_mem _ hm))]
      have hne : s ≠ m0.name := fun he => hs m0 (List.mem_cons_self _ _) he.symm
      simp [hne]

theorem assembleFromMap_mem (wm : Int → Option DecodedField) :
    ∀ (metas : List FieldMeta) (acc r : String → Option OutVal) (meta : FieldMeta),
      assembleFromMap wm metas acc = .ok r → meta ∈ metas →
      (metas.map FieldMeta.name).Nodup →
      ∃ v, formatField (wm (meta.number : Int)) meta.ftype = .ok v ∧
        r meta.name = some v := by
  intro metas
  induction metas with
  | nil =>
    intro acc r meta _ hm _
    exact absurd hm (List.not_mem_nil meta)
  | cons m0 rest ih =>
    intro acc r meta h hm hnd
    simp only [assembleFromMap] at h
    simp only [List.map_cons, List.nodup_cons] at hnd
    cases hf : formatField (wm (m0.number : Int)) m0.ftype with
    | error e => rw [hf] at h; exact Except.noConfusion h
    | ok v =>
      rw [hf] at h
      rcases List.mem_cons.mp hm with rfl | hm'
      · refine ⟨v, hf, ?_⟩
        have hnot : ∀ m ∈ rest, m.name ≠ meta.name := by
          intro m hmem he
          exact hnd.1 (he ▸ List.mem_map_of_mem FieldMeta.name hmem)
        rw [assembleFromMap_frame wm rest _ r h meta.name hnot]
        simp
      · exact ih _ r meta h hm' hnd.2

theorem assembleFromMap_some (wm : Int → Option DecodedField) :
    ∀ (metas : List FieldMeta) (acc r : String → Option OutVal) (s : String),
      assembleFromMap wm metas acc = .ok r →
      (s ∈ metas.map FieldMeta.name ∨ ∃ v, acc s = some v) →
      ∃ v, r s = some v := by
  intro metas
  induction metas with
  | nil =>
    intro acc r s h hyp
    simp only [assembleFromMap] at h
    injection h with h
    rcases hyp with hyp | hyp
    · simp at hyp
    · rw [← h]; exact hyp
  | cons m0 rest ih =>
    intro acc r s h hyp
    simp only [assembleFromMap] at h
    cases hf : formatField (wm (m0.number : Int)) m0.ftype with
    | error e => rw [hf] at h; exact Except.noConfusion h
    | ok v =>
      rw [hf] at h
      rcases hyp with hyp | hyp
      · simp only [List.map_cons, List.mem_cons] at hyp
        rcases hyp with rfl | hyp
        · exact ih _ r m0.name h (Or.inr ⟨v, by simp⟩)
        · exact ih _ r s h (Or.inl hyp)
      · by_cases he : s = m0.name
        · exact ih _ r s h (Or.inr ⟨v, by simp [he]⟩)
        · exact ih _ r s h (Or.inr (by simpa [he] using hyp))

/-! ## Object.values lemmas for the metadata map -/

theorem mem_dedupGo : ∀ (l seen : List Nat) (x : Nat),
    x ∈ dedupGo seen l ↔ (x ∈ l ∧ x ∉ seen) := by
  intro l
  induction l with
  | nil => intro seen x; simp [dedupGo]
  | cons k rest ih =>
    intro seen x
    by_cases hk : k ∈ seen
    · rw [dedupGo, if_pos hk, ih]
      constructor
      · rintro ⟨h1, h2⟩
        exact ⟨List.mem_cons_of_mem _ h1, h2⟩
      · rintro ⟨h1, h2⟩
        rcases List.mem_cons.mp h1 with rfl | h1
        · exact absurd hk h2
        · exact ⟨h1, h2⟩
    · rw [dedupGo, if_neg hk]
      constructor
      · intro hmem
        rcases List.mem_cons.mp hmem with rfl | hmem
        · exact ⟨List.mem_cons_self _ _, hk⟩
        · have := (ih (k :: seen) x).mp hmem
          refine ⟨List.mem_cons_of_mem _ this.1, fun hs => this.2 (List.mem_cons_of_mem _ hs)⟩
      · rintro ⟨h1, h2⟩
        rcases List.mem_cons.mp h1 with rfl | h1
        · exact List.mem_cons_self _ _
        · by_cases hxk : x = k
          · subst hxk; exact List.mem_cons_self _ _
          · refine List.mem_cons_of_mem _ ((ih (k :: seen) x).mpr ⟨h1, ?_⟩)
            intro hs
            rcases List.mem_cons.mp hs with h | h
            · exact hxk h
            · exact h2 h

theorem mem_dedupNats (l : List Nat) (x : Nat) : x ∈ dedupNats l ↔ x ∈ l := by
  rw [dedupNats, mem_dedupGo]
  simp

theorem mem_insortNat (k : Nat) : ∀ (l : List Nat) (x : Nat),
    x ∈ insortNat k l ↔ x = k ∨ x ∈ l := by
  intro l
  induction l with
  | nil => intro x; simp [insortNat]
  | cons a rest ih =>
    intro x
    rw [insortNat]
    by_cases hle : k ≤ a
    · rw [if_pos hle]
      simp
    · rw [if_neg hle]
      simp only [List.mem_cons, ih]
      tauto

theorem mem_sortNats : ∀ (l : List Nat) (x : Nat), x ∈ sortNats l ↔ x ∈ l := by
  intro l
  induction l with
  | nil => intro x; simp [sortNats]
  | cons a rest ih =>
    intro x
    show x ∈ insortNat a (sortNats rest) ↔ _
    rw [mem_insortNat, ih]
    simp

theorem find?_number_nodup :
    ∀ (l : List FieldMeta), ((l.map FieldMeta.number).Nodup) →
      ∀ f ∈ l, l.find? (fun g => g.number == f.number) = some f := by
  intro l
  induction l with
  | nil => intro _ f hf; exact absurd hf (List.not_mem_nil f)
  | cons g rest ih =>
    intro hnd f hf
    simp only [List.map_cons, List.nodup_cons] at hnd
    rcases List.mem_cons.mp hf with rfl | hf'
    · rw [List.find?_cons_of_pos _ (by simp)]
    · have hne : g.number ≠ f.number := by
        intro he
        exact hnd.1 (he ▸ List.mem_map_of_mem FieldMeta.number hf')
      rw [List.find?_cons_of_neg _ (by simpa using hne)]
      exact ih hnd.2 f hf'

theorem lastWithNumber_self {fs : List FieldMeta}
    (hnd : (fs.map FieldMeta.number).Nodup) {f : FieldMeta} (hf : f ∈ fs) :
    lastWithNumber fs f.number = some f := by
  unfold lastWithNumber
  refine find?_number_nodup fs.reverse ?_ f (List.mem_reverse.mpr hf)
  rw [List.map_reverse]
  exact List.nodup_reverse.mpr hnd

theorem mem_of_mem_objectValues {fs : List FieldMeta} {g : FieldMeta}
    (h : g ∈ objectValues fs) : g ∈ fs := by
  unfold objectValues at h
  obtain ⟨k, _, hfind⟩ := List.mem_filterMap.mp h
  exact List.mem_reverse.mp (List.mem_of_find?_eq_some hfind)

theorem mem_objectValues_of_mem {fs : List FieldMeta}
    (hnd : (fs.map FieldMeta.number).Nodup) {f : FieldMeta} (hf : f ∈ fs) :
    f ∈ objectValues fs := by
  unfold objectValues
  refine List.mem_filterMap.mpr ⟨f.number, ?_, lastWithNumber_self hnd hf⟩
  rw [mem_sortNats, mem_dedupNats]
  exact List.mem_map_of_mem FieldMeta.number hf

theorem names_objectValues {fs : List FieldMeta}
    (hnd : (fs.map FieldMeta.number).Nodup) (s : String) :
    s ∈ (objectValues fs).map FieldMeta.name ↔ s ∈ fs.map FieldMeta.name := by
  constructor
  · intro h
    obtain ⟨g, hg, rfl⟩ := List.mem_map.mp h
    exact List.mem_map_of_mem FieldMeta.name (mem_of_mem_objectValues hg)
  · intro h
    obtain ⟨f, hf, rfl⟩ := List.mem_map.mp h
    exact List.mem_map_of_mem FieldMeta.name (mem_objectValues_of_mem hnd hf)

/-- C2: given the schema `message M { int32 a = 1; bool b = 10; string c = 20 }`
and wire bytes encoding a=1234 (tag 0x08, varint 0xD2 0x09) and c="hello"
(tag varint 0xA2 0x01, length 5) with no b present, assembling yields
{a: 1234, b: false, c: "hello"}; in general every declared field absent from
the wire map is given its type-appropriate default (string → "", bool →
false, int32 → 0), and a bool field present with a decoded VARINT v is true
iff v = 1. -/
theorem c2_assemble_defaults :
    (∃ r, decodeMessage [0x08, 0xD2, 0x09, 0xA2, 0x01, 0x05, 0x68, 0x65, 0x6C, 0x6C, 0x6F]
        [.message "M" [.field .int32 "a" 1, .field .bool "b" 10, .field .string "c" 20]]
        "M" = .ok r ∧
      r "a" = some (.num 1234) ∧ r "b" = some (.boolean false) ∧
      r "c" = some (.str "hello")) ∧
    (formatField none .string = .ok (.str "") ∧ formatField none .bool = .ok (.boolean false) ∧
      formatField none .int32 = .ok (.num 0)) ∧
    (∀ (wm : Int → Option DecodedField) (metas : List FieldMeta) (r : String → Option OutVal)
      (meta : FieldMeta),
      assembleFromMap wm metas (fun _ => none) = .ok r → meta ∈ metas →
      (metas.map FieldMeta.name).Nodup →
      (wm (meta.number : Int) = none →
        r meta.name = some (match meta.ftype with
          | .string => OutVal.str ""
          | .bool => .boolean false
          | .int32 => .num 0)) ∧
      (∀ df v, wm (meta.number : Int) = some df → df.value = .scalar (some v) →
        meta.ftype = .bool → (r meta.name = some (.boolean true) ↔ v = 1))) := by
  refine ⟨?_, ⟨rfl, rfl, rfl⟩, ?_⟩
  · have h2 : scanFrom [0x08, 0xD2, 0x09, 0xA2, 0x01, 0x05, 0x68, 0x65, 0x6C, 0x6C, 0x6F] 11 =
        .ok [] := scanFrom_stop _ _ (by decide)
    have h1 : scanFrom [0x08, 0xD2, 0x09, 0xA2, 0x01, 0x05, 0x68, 0x65, 0x6C, 0x6C, 0x6F] 3 =
        .ok [(20, ⟨.LEN, .bytes [some 0x68, some 0x65, some 0x6C, some 0x6C, some 0x6F]⟩)] := by
      have := scanFrom_step [0x08, 0xD2, 0x09, 0xA2, 0x01, 0x05, 0x68, 0x65, 0x6C, 0x6C, 0x6F]
        3 0xA2 .LEN 11 [] (by decide) rfl (by decide) h2
      simpa using this
    have h0 : scanFrom [0x08, 0xD2, 0x09, 0xA2, 0x01, 0x05, 0x68, 0x65, 0x6C, 0x6C, 0x6F] 0 =
        .ok [(1, ⟨.VARINT, .scalar (some 1234)⟩),
          (20, ⟨.LEN, .bytes [some 0x68, some 0x65, some 0x6C, some 0x6C, some 0x6F]⟩)] := by
      have := scanFrom_step [0x08, 0xD2, 0x09, 0xA2, 0x01, 0x05, 0x68, 0x65, 0x6C, 0x6C, 0x6F]
        0 0x08 .VARINT 3 _ (by decide) rfl (by decide) h1
      simpa using this
    refine ⟨fun s => if s = "c" then some (.str "hello") else if s = "b" then
      some (.boolean false) else if s = "a" then some (.num 1234) else none, ?_,
      by simp, by simp, by simp⟩
    simp only [decodeMessage, getDecodedFieldNumberToWireFormatMap, h0]
    norm_num [pullMessageMetadataFromAst, findMessage, rawFields, objectValues,
      dedupNats, dedupGo, sortNats, insortNat, lastWithNumber, assembleFromMap, formatField,
      mapAssign, jsTruthy, bytesToString]
  · intro wm metas r meta hassm hmem hnd
    obtain ⟨v, hfv, hr⟩ := assembleFromMap_mem wm metas _ r meta hassm hmem hnd
    constructor
    · intro habs
      rw [habs] at hfv
      rw [hr]
      cases hft : meta.ftype <;> rw [hft] at hfv <;>
        (injection hfv with hv; rw [← hv])
    · intro df v' hsome hscal hbool
      rw [hsome, hbool] at hfv
      have : formatField (some df) FieldType.bool =
          .ok (.boolean (df.value == FieldValue.scalar (some 1))) := rfl
      rw [this] at hfv
      injection hfv with hv
      rw [hr, ← hv, hscal]
      constructor
      · intro hh
        injection hh with hh
        injection hh with hh
        simpa using of_decide_eq_true (by simpa using hh)
      · intro hh
        subst hh
        simp

theorem c2_assemble_defaults_witness :
    ((fun _ => (none : Option DecodedField)) ((10 : Nat) : Int) = none) ∧
    (fun s => if s = "b" then some (OutVal.boolean false) else none) "b" =
      some (match FieldType.bool with
        | .string => OutVal.str ""
        | .bool => .boolean false
        | .int32 => .num 0) :=
  ⟨rfl, (c2_assemble_defaults.2.2 (fun _ => none) [⟨"b", 10, .bool⟩]
    (fun s => if s = "b" then some (.boolean false) else none) ⟨"b", 10, .bool⟩
    rfl (by decide) (by decide)).1 rfl⟩

/-- C3 describes the intended int32 semantics, but the source does not
narrow: the `int32` arm of decodeMessage returns the decoded VARINT value
unchanged (`(partiallyDecodedField?.value ?? 0) as number`, marked
`// todo: narrow`).  For wire bytes encoding field 1 = 4294967295 — the
protobuf encoding of int32 -1 — the assembled record holds the raw
4294967295, while the claimed 32-bit signed reinterpretation (toInt32)
yields -1. -/
theorem c3_int32_not_narrowed :
    (∃ r, decodeMessage [0x08, 0xFF, 0xFF, 0xFF, 0xFF, 0x0F]
        [.message "M" [.field .int32 "a" 1]] "M" = .ok r ∧
      r "a" = some (.num 4294967295)) ∧
    toInt32 4294967295 = -1 ∧
    ((4294967295 : Int) ≠ (-1 : Int)) := by
  refine ⟨?_, by decide, by decide⟩
  have h1 : scanFrom [0x08, 0xFF, 0xFF, 0xFF, 0xFF, 0x0F] 6 = .ok [] :=
    scanFrom_stop _ _ (by decide)
  have h0 : scanFrom [0x08, 0xFF, 0xFF, 0xFF, 0xFF, 0x0F] 0 =
      .ok [(1, ⟨.VARINT, .scalar (some 4294967295)⟩)] := by
    have := scanFrom_step [0x08, 0xFF, 0xFF, 0xFF, 0xFF, 0x0F] 0 0x08 .VARINT 6 []
      (by decide) rfl (by decide) h1
    simpa using this
  refine ⟨fun s => if s = "a" then some (.num 4294967295) else none, ?_, by simp⟩
  simp only [decodeMessage, getDecodedFieldNumberToWireFormatMap, h0]
  norm_num [pullMessageMetadataFromAst, findMessage, rawFields, objectValues,
    dedupNats, dedupGo, sortNats, insortNat, lastWithNumber, assembleFromMap, formatField,
    mapAssign, jsTruthy]

/-- C10 as stated is false when two Field children share a field number: the
metadata object is keyed by number, so only the last declaration survives
and the earlier field's name is missing from the assembled record.  Schema
`message M { int32 a = 1; string b = 1 }` assembled over an empty buffer
succeeds but produces a record without key "a". -/
theorem c10_counterexample :
    rawFields [.field .int32 "a" 1, .field .string "b" 1] =
      .ok [⟨"a", 1, .int32⟩, ⟨"b", 1, .string⟩] ∧
    "a" ∈ ([⟨"a", 1, .int32⟩, ⟨"b", 1, .string⟩] : List FieldMeta).map FieldMeta.name ∧
    (∃ r, decodeMessage [] [.message "M" [.field .int32 "a" 1, .field .string "b" 1]] "M" =
        .ok r ∧
      r "a" = none ∧ r "b" = some (.str "")) := by
  refine ⟨rfl, by decide, ?_⟩
  have h0 : scanFrom [] 0 = .ok [] := scanFrom_stop _ _ (by decide)
  refine ⟨fun s => if s = "b" then some (.str "") else none, ?_, by simp, by simp⟩
  simp only [decodeMessage, getDecodedFieldNumberToWireFormatMap, h0]
  norm_num [pullMessageMetadataFromAst, findMessage, rawFields, objectValues,
    dedupNats, dedupGo, sortNats, insortNat, lastWithNumber, assembleFromMap, formatField,
    mapAssign, jsTruthy]

/-- C10 (amended): whenever assembling succeeds and the declared field
numbers of the message are pairwise distinct, the keys of the resulting
record are exactly the names of the message's Field children (wire entries
with undeclared field numbers are dropped: any other key maps to none). -/
theorem c10_record_keys :
    ∀ (ast : List AstNode) (msg nm : String) (body : List AstNode) (fields : List FieldMeta)
      (binary : List Nat) (r : String → Option OutVal),
      findMessage ast msg = some (nm, body) →
      rawFields body = .ok fields →
      ((fields.map FieldMeta.number).Nodup) →
      decodeMessage binary ast msg = .ok r →
      ∀ s, (∃ v, r s = some v) ↔ s ∈ fields.map FieldMeta.name := by
  intro ast msg nm body fields binary r hfind hraw hnd hdec s
  unfold decodeMessage at hdec
  cases hwm : getDecodedFieldNumberToWireFormatMap binary with
  | error e => rw [hwm] at hdec; exact absurd hdec (by simp)
  | ok wm =>
    rw [hwm] at hdec
    have hpull : pullMessageMetadataFromAst ast msg = .ok (objectValues fields) := by
      unfold pullMessageMetadataFromAst
      rw [hfind]
      simp only [hraw]
    rw [hpull] at hdec
    constructor
    · rintro ⟨v, hv⟩
      rw [← names_objectValues hnd]
      by_contra hnot
      have := assembleFromMap_frame wm (objectValues fields) _ r hdec s ?_
      · rw [hv] at this
        exact Option.noConfusion this
      · intro m hm he
        exact hnot (he ▸ List.mem_map_of_mem FieldMeta.name hm)
    · intro hmem
      exact assembleFromMap_some wm (objectValues fields) _ r s hdec
        (Or.inl ((names_objectValues hnd s).mpr hmem))

theorem c10_record_keys_witness :
    (findMessage [AstNode.message "N" [.field .bool "x" 3]] "N" =
        some ("N", [AstNode.field .bool "x" 3]) ∧
      rawFields [AstNode.field .bool "x" 3] = .ok [⟨"x", 3, .bool⟩] ∧
      (([⟨"x", 3, FieldType.bool⟩] : List FieldMeta).map FieldMeta.number).Nodup ∧
      decodeMessage [0x18, 0x01] [AstNode.message "N" [.field .bool "x" 3]] "N" =
        .ok (fun s => if s = "x" then some (.boolean true) else none)) ∧
    (∀ s, (∃ v, (fun s => if s = "x" then some (OutVal.boolean true) else none) s = some v) ↔
      s ∈ ([⟨"x", 3, FieldType.bool⟩] : List FieldMeta).map FieldMeta.name) := by
  have h1 : scanFrom [0x18, 0x01] 2 = .ok [] := scanFrom_stop _ _ (by decide)
  have h0 : scanFrom [0x18, 0x01] 0 = .ok [(3, ⟨.VARINT, .scalar (some 1)⟩)] := by
    have := scanFrom_step [0x18, 0x01] 0 0x18 .VARINT 2 [] (by decide) rfl (by decide) h1
    simpa using this
  have hdec : decodeMessage [0x18, 0x01] [AstNode.message "N" [.field .bool "x" 3]] "N" =
      .ok (fun s => if s = "x" then some (.boolean true) else none) := by
    simp only [decodeMessage, getDecodedFieldNumberToWireFormatMap, h0]
    norm_num [pullMessageMetadataFromAst, findMessage, rawFields, objectValues,
      dedupNats, dedupGo, sortNats, insortNat, lastWithNumber, assembleFromMap, formatField,
      mapAssign, jsTruthy]
  exact ⟨⟨rfl, rfl, by decide, hdec⟩,
    c10_record_keys [AstNode.message "N" [.field .bool "x" 3]] "N" "N"
      [AstNode.field .bool "x" 3] [⟨"x", 3, .bool⟩] [0x18, 0x01] _ rfl rfl (by decide) hdec⟩

/-! ## Lexer peek lemmas -/

theorem consumeLoop_head (st : List Char) (k : Nat) (ts : List Token) (st' : List Char)
    (h : consumeLoop st (k + 1) = .ok (ts, st')) :
    ∃ t st1, consumeLoop st 1 = .ok ([t], st1) ∧ ts.head? = some t := by
  rw [show (1 : Nat) = 0 + 1 from rfl]
  cases hD : st.dropWhile jsWhitespace with
  | nil =>
    simp only [consumeLoop, hD] at h
    injection h with h
    injection h with h1 h2
    exact ⟨.eof, [], by simp only [consumeLoop, hD], by rw [← h1]; rfl⟩
  | cons c rest =>
    simp only [consumeLoop, hD] at h
    by_cases hdel : isDelimChar c
    · simp only [hdel, if_true] at h
      cases hg : getToken [c] with
      | error e => simp only [hg] at h; exact Except.noConfusion h
      | ok t =>
        simp only [hg] at h
        cases hc : consumeLoop rest k with
        | error e => simp only [hc] at h; exact Except.noConfusion h
        | ok p =>
          obtain ⟨ts0, st2⟩ := p
          simp only [hc] at h
          injection h with h
          injection h with h1 h2
          refine ⟨t, rest, ?_, by rw [← h1]; rfl⟩
          simp only [consumeLoop, hD, hdel, if_true, hg]
    · simp only [hdel, if_false, Bool.false_eq_true] at h
      cases hg : getToken ((c :: rest).takeWhile runChar) with
      | error e => simp only [hg] at h; exact Except.noConfusion h
      | ok t =>
        simp only [hg] at h
        cases hc : consumeLoop ((c :: rest).dropWhile runChar) k with
        | error e => simp only [hc] at h; exact Except.noConfusion h
        | ok p =>
          obtain ⟨ts0, st2⟩ := p
          simp only [hc] at h
          injection h with h
          injection h with h1 h2
          refine ⟨t, (c :: rest).dropWhile runChar, ?_, by rw [← h1]; rfl⟩
          simp only [consumeLoop, hD, hdel, if_false, Bool.false_eq_true, hg]

/-- C7: the Lexer's peek leaves consumption state unchanged — the state it
hands back is the one it started from, a second peek returns the identical
token list, and consuming one token afterwards yields the first of the
peeked tokens. -/
theorem c7_peek_no_consume :
    ∀ (st : List Char) (k : Nat) (ts : List Token) (st' : List Char),
      1 ≤ k → peekTokens st k = .ok (ts, st') →
      st' = st ∧ peekTokens st' k = .ok (ts, st') ∧
      ∃ t st1, consumeOne st' = .ok (t, st1) ∧ ts.head? = some t := by
  intro st k ts st' hk hp
  unfold peekTokens at hp
  cases hc : consumeLoop st k with
  | error e => rw [hc] at hp; exact Except.noConfusion hp
  | ok p =>
    obtain ⟨ts0, stX⟩ := p
    rw [hc] at hp
    injection hp with hp
    injection hp with h1 h2
    subst h1
    subst h2
    refine ⟨rfl, ?_, ?_⟩
    · unfold peekTokens
      rw [hc]
    · cases k with
      | zero => omega
      | succ j =>
        obtain ⟨t, st1, hone, hhead⟩ := consumeLoop_head st j _ _ hc
        refine ⟨t, st1, ?_, hhead⟩
        unfold consumeOne
        rw [hone]

theorem c7_peek_no_consume_witness :
    ((1 : Nat) ≤ 2 ∧ peekTokens "syntax = \"proto3\";".toList 2 =
      .ok ([.keyword "syntax", .operator "="], "syntax = \"proto3\";".toList)) ∧
    ("syntax = \"proto3\";".toList = "syntax = \"proto3\";".toList ∧
      peekTokens "syntax = \"proto3\";".toList 2 =
        .ok ([.keyword "syntax", .operator "="], "syntax = \"proto3\";".toList) ∧
      ∃ t st1, consumeOne "syntax = \"proto3\";".toList = .ok (t, st1) ∧
        ([Token.keyword "syntax", Token.operator "="]).head? = some t) :=
  ⟨⟨by decide, by decide⟩,
    c7_peek_no_consume "syntax = \"proto3\";".toList 2
      [.keyword "syntax", .operator "="] "syntax = \"proto3\";".toList
      (by decide) (by decide)⟩

/-! ## Parser loop bounds -/

theorem consumeMessageIterF_eq :
    ∀ (fuel : Nat) (st : List Char) (body : List AstNode) (g : Nat), g < fuel →
      consumeMessageIterF st body g fuel = some (consumeMessageLoop st body g) := by
  intro fuel
  induction fuel with
  | zero => intro st body g h; omega
  | succ f ih =>
    intro st body g _
    cases g with
    | zero => rfl
    | succ g' =>
      simp only [consumeMessageIterF, consumeMessageLoop]
      cases hms : messageStep st body with
      | inl r => simp only [hms]
      | inr p =>
        obtain ⟨st2, body2⟩ := p
        simp only [hms]
        exact ih st2 body2 g' (by omega)

theorem parseIterF_eq :
    ∀ (fuel : Nat) (st : List Char) (lim : Nat) (acc : List AstNode), 51 - lim < fuel →
      parseIterF st lim acc fuel = some (parseLoop st lim acc) := by
  intro fuel
  induction fuel with
  | zero => intro st lim acc h; omega
  | succ f ih =>
    intro st lim acc h
    rw [parseLoop]
    simp only [parseIterF]
    cases hp : peekOne st with
    | error e => simp only [hp]
    | ok t =>
      simp only [hp]
      by_cases ht : t = Token.eof
      · simp [ht]
      · by_cases hl : lim > 50
        · simp [ht, hl]
        · cases hd : parseDispatch st t acc with
          | inl r => simp [ht, hl, hd]
          | inr p =>
            obtain ⟨st2, acc2⟩ := p
            simp only [if_neg ht, if_neg hl, dif_neg hl, hd]
            exact ih st2 (lim + 1) acc2 (by omega)

/-- C8: Parser.parse terminates on every input: its top-level loop and the
per-message-body loop both finish within the iteration bound their guard
counters enforce — running either loop with any iteration budget beyond the
bound gives the same (non-diverging) result as the bounded loop — and
exhausting a guard produces an error instead of looping (the message-body
guard's "more than 1000 iterations" error, the top-level limit's "too much
loopy boi" error). -/
theorem c8_parse_bounded :
    (∀ (st : List Char) (body : List AstNode) (g fuel : Nat), g < fuel →
      consumeMessageIterF st body g fuel = some (consumeMessageLoop st body g)) ∧
    (∀ (st : List Char) (lim : Nat) (acc : List AstNode) (fuel : Nat), 51 - lim < fuel →
      parseIterF st lim acc fuel = some (parseLoop st lim acc)) ∧
    (∀ (proto : String) (fuel : Nat), 51 < fuel →
      parseIterF (preprocess proto) 0 [] fuel = some (parseProto proto)) ∧
    (∀ (st : List Char) (body : List AstNode),
      consumeMessageLoop st body 0 =
        .error "unable to parse message, saw more than 1000 iterations") ∧
    (∀ (st : List Char) (lim : Nat) (acc : List AstNode) (t : Token),
      peekOne st = .ok t → t ≠ Token.eof → 50 < lim →
      parseLoop st lim acc = .error "too much loopy boi") := by
  refine ⟨fun st body g fuel h => consumeMessageIterF_eq fuel st body g h,
    fun st lim acc fuel h => parseIterF_eq fuel st lim acc h,
    fun proto fuel h => parseIterF_eq fuel (preprocess proto) 0 [] (by omega),
    fun st body => rfl, ?_⟩
  intro st lim acc t hp ht hl
  rw [parseLoop]
  simp [hp, ht, hl]

theorem c8_parse_bounded_witness :
    ((0 : Nat) < 1 ∧ (51 : Nat) - 0 < 52) ∧
    consumeMessageIterF [] [] 0 1 = some (consumeMessageLoop [] [] 0) ∧
    parseIterF [] 0 [] 52 = some (parseLoop [] 0 []) :=
  ⟨⟨by decide, by decide⟩, c8_parse_bounded.1 [] [] 0 1 (by decide),
    c8_parse_bounded.2.1 [] 0 [] 52 (by decide)⟩

end ProtoDec
